import Mathlib

/-!
Verification of the minigrep library (`src/lib.rs`).

Strings are embedded as `List Char`.  The Rust methods used by the library
are modelled as executable Lean functions:

* `str::contains`  →  `isPrefixLC` / `strContains`
* `str::lines`     →  `splitNewlines` / `finishLines` / `lines`
* `str::to_lowercase` → `toLowercase` (the per-character simple lowercase
  table plus the context-sensitive Final_Sigma rule of the Rust std
  implementation, with the character tables restricted to the ranges this
  development reasons about)
* `Config::build`, `search_strategy_factory` and the two `SearchStrategy`
  implementations are translated directly.
-/

namespace Minigrep

/-- Models `needle.is_prefix_of(hay)` on character lists: `isPrefixLC q l`
is `true` exactly when `q` is a prefix of `l`. -/
def isPrefixLC : List Char → List Char → Bool
  | [], _ => true
  | _ :: _, [] => false
  | a :: q, b :: l => a == b && isPrefixLC q l

/-- Models Rust `hay.contains(needle)` (`str::contains` with a string
pattern): `strContains q l` is `true` exactly when `q` occurs as a
contiguous substring of `l`. -/
def strContains (q : List Char) : List Char → Bool
  | [] => isPrefixLC q []
  | b :: l => isPrefixLC q (b :: l) || strContains q l

/-- Splits a character list at every newline character.  Returns the list
of chunks between newlines; always nonempty (the empty input gives one
empty chunk). -/
def splitNewlines : List Char → List (List Char)
  | [] => [[]]
  | c :: cs =>
    if c = '\n' then [] :: splitNewlines cs
    else
      match splitNewlines cs with
      | [] => [[c]]
      | l :: ls => (c :: l) :: ls

/-- Removes one trailing carriage return, if present.  Rust `str::lines`
treats `\r\n` as a line terminator, so every chunk that was terminated by a
newline has a single trailing `\r` stripped. -/
def stripTrailingCR (l : List Char) : List Char :=
  if l.getLast? = some '\r' then l.dropLast else l

/-- Post-processes the chunks produced by `splitNewlines` the way Rust
`str::lines` does: every chunk except the last was terminated by `\n` and
has a trailing `\r` stripped; the last chunk (the text after the final
newline) is dropped when empty and kept verbatim otherwise. -/
def finishLines : List (List Char) → List (List Char)
  | [] => []
  | [last] => if last = [] then [] else [last]
  | chunk :: rest => stripTrailingCR chunk :: finishLines rest

/-- Models Rust `contents.lines()`: the sequence of lines of `contents`,
split at `\n` or `\r\n`, with no line produced for a trailing newline. -/
def lines (contents : List Char) : List (List Char) :=
  finishLines (splitNewlines contents)

/-- The Unicode Cased property, as consulted by Rust `str::to_lowercase`,
restricted to the character ranges this development reasons about: ASCII
letters and the Greek block.  Characters outside the modelled ranges are
treated as uncased. -/
def isCased (c : Char) : Bool :=
  decide ((65 ≤ c.toNat ∧ c.toNat ≤ 90) ∨ (97 ≤ c.toNat ∧ c.toNat ≤ 122) ∨
    (0x370 ≤ c.toNat ∧ c.toNat ≤ 0x3FF))

/-- The Unicode Case_Ignorable property, restricted likewise: of the
characters this development reasons about, the apostrophe, the full stop,
the colon and the combining marks U+0300 to U+036F are Case_Ignorable. -/
def isCaseIgnorable (c : Char) : Bool :=
  decide (c.toNat = 0x27 ∨ c.toNat = 0x2E ∨ c.toNat = 0x3A ∨
    (0x300 ≤ c.toNat ∧ c.toNat ≤ 0x36F))

/-- `case_ignorable_then_cased` from the Rust std implementation of
`str::to_lowercase`: skip Case_Ignorable characters, then report whether
the first remaining character is Cased. -/
def caseIgnorableThenCased : List Char → Bool
  | [] => false
  | c :: rest =>
    if isCaseIgnorable c then caseIgnorableThenCased rest else isCased c

/-- The simple (context-free) lowercase table of Rust std
(`conversions::to_lower`), restricted to the character ranges this
development reasons about: ASCII capitals and the Greek capitals U+0391
to U+03A9 move down by 32 code points (so Σ maps to σ; the final form ς
comes only from the Final_Sigma rule below); characters outside the
modelled ranges are kept unchanged.  The full table also maps other
scripts, a few entries expanding to several characters. -/
def charLowerSimple (c : Char) : Char :=
  if 65 ≤ c.toNat ∧ c.toNat ≤ 90 then Char.ofNat (c.toNat + 32)
  else if 0x391 ≤ c.toNat ∧ c.toNat ≤ 0x3A9 then Char.ofNat (c.toNat + 32)
  else c

/-- The loop of Rust `str::to_lowercase`.  Every character goes through
the simple table, except that a capital sigma is mapped by
`map_uppercase_sigma`: it becomes the word-final form ς exactly when a
cased character precedes it and no cased character follows it, skipping
Case_Ignorable characters on both sides (the Final_Sigma condition).
`before` holds the already-processed characters nearest first, matching
the reversed prefix iterator in the source. -/
def toLowercaseAux : List Char → List Char → List Char
  | _, [] => []
  | before, c :: after =>
    (if c = 'Σ' then
      if caseIgnorableThenCased before && !caseIgnorableThenCased after
      then ['ς'] else ['σ']
    else [charLowerSimple c]) ++ toLowercaseAux (c :: before) after

/-- Models Rust `str::to_lowercase`. -/
def toLowercase (s : List Char) : List Char :=
  toLowercaseAux [] s

/-- `Config` from `src/lib.rs`: query, file path and the case flag. -/
structure Config where
  query : String
  file_path : String
  ignore_case : Bool
  deriving DecidableEq, Repr

/-- `Config::build` from `src/lib.rs`.  The argument iterator is modelled
as the list of the arguments it would yield; `args.next()` first discards
the application path, the next two items become `query` and `file_path`.
`env::var("IGNORE_CASE").is_ok()` is modelled by `envIgnoreCase.isSome`,
where `envIgnoreCase` is the value of the `IGNORE_CASE` environment
variable if it is set.  The function is pure: it touches no file and has
no side effect.  The error strings are the ones from the source. -/
def Config.build (args : List String) (envIgnoreCase : Option String) :
    Except String Config :=
  -- args.next(): throw away the first argument (application path)
  match args.drop 1 with
  | [] => .error ("Didn\x27t get a string to query")
  | query :: rest =>
    match rest with
    | [] => .error ("Didn\x27t get a filepath")
    | file_path :: _ =>
      .ok { query := query, file_path := file_path,
            ignore_case := envIgnoreCase.isSome }

/-- `CaseSensitiveSearch::search`: push every line of `contents` with
`line.contains(query)` into the result, in order.  The source loop with
`results.push` is a filter over `contents.lines()`. -/
def CaseSensitiveSearch.search (query contents : List Char) :
    List (List Char) :=
  ( lines contents).filter (fun line => strContains query line)

/-- `CaseInsensitiveSearch::search`: lowercase the query once, then push
every line whose lowercased form contains it, returning the original
line. -/
def CaseInsensitiveSearch.search (query contents : List Char) :
    List (List Char) :=
  let q := toLowercase query
  ( lines contents).filter (fun line => strContains q (toLowercase line))

/-- The two implementors of the `SearchStrategy` trait, as a sum type. -/
inductive SearchStrategy
  | CaseSensitiveSearch
  | CaseInsensitiveSearch
  deriving DecidableEq, Repr

/-- Trait dispatch for `SearchStrategy::search`. -/
def SearchStrategy.search :
    SearchStrategy → List Char → List Char → List (List Char)
  | .CaseSensitiveSearch, query, contents =>
      CaseSensitiveSearch.search query contents
  | .CaseInsensitiveSearch, query, contents =>
      CaseInsensitiveSearch.search query contents

/-- `search_strategy_factory` from `src/lib.rs`. -/
def search_strategy_factory (ignore_case : Bool) : Option SearchStrategy :=
  match ignore_case with
  | false => some SearchStrategy.CaseSensitiveSearch
  | true => some SearchStrategy.CaseInsensitiveSearch

/-- The four-line contents used by the tests in `src/lib.rs`. -/
def exampleContents : List Char :=
  ("Rust:\nsafe, fast, productive.\nPick three.\nTrust me").toList

end Minigrep
namespace Minigrep

theorem isPrefixLC_iff : ∀ q l : List Char, isPrefixLC q l = true ↔ q <+: l
  | [], l => by
    simp only [isPrefixLC]
    exact ⟨fun _ => ⟨l, rfl⟩, fun _ => trivial⟩
  | a :: q, [] => by
    simp only [isPrefixLC]
    constructor
    · intro h; cases h
    · rintro ⟨t, ht⟩; cases ht
  | a :: q, b :: l => by
    simp only [isPrefixLC, Bool.and_eq_true, beq_iff_eq, List.cons_prefix_cons]
    exact and_congr Iff.rfl (isPrefixLC_iff q l)

theorem strContains_iff (q : List Char) :
    ∀ l : List Char, strContains q l = true ↔ q <:+: l
  | [] => by
    simp only [strContains, isPrefixLC_iff]
    constructor
    · rintro ⟨t, ht⟩
      exact ⟨[], t, ht⟩
    · rintro ⟨s, t, h⟩
      rcases List.append_eq_nil.1 h with ⟨h1, h2⟩
      rcases List.append_eq_nil.1 h1 with ⟨rfl, rfl⟩
      exact ⟨[], rfl⟩
  | b :: l => by
    simp only [strContains, Bool.or_eq_true, isPrefixLC_iff, strContains_iff q l]
    exact (List.infix_cons_iff).symm

theorem splitNewlines_ne_nil : ∀ cs : List Char, splitNewlines cs ≠ []
  | [] => by simp [splitNewlines]
  | c :: cs => by
    simp only [splitNewlines]
    split
    · simp
    · split
      · simp
      · simp

theorem newline_not_mem_splitNewlines :
    ∀ (cs : List Char) (l : List Char), l ∈ splitNewlines cs → '\n' ∉ l
  | [], l, hl => by
    simp only [splitNewlines, List.mem_singleton] at hl
    simp [hl]
  | c :: cs, l, hl => by
    simp only [splitNewlines] at hl
    by_cases hc : c = '\n'
    · rw [if_pos hc] at hl
      rcases List.mem_cons.1 hl with rfl | h
      · simp
      · exact newline_not_mem_splitNewlines cs l h
    · rw [if_neg hc] at hl
      rcases h0 : splitNewlines cs with _ | ⟨l0, ls⟩
      · exact absurd h0 (splitNewlines_ne_nil cs)
      · rw [h0] at hl
        rcases List.mem_cons.1 hl with rfl | h
        · intro hmem
          rcases List.mem_cons.1 hmem with h1 | h1
          · exact hc h1.symm
          · exact newline_not_mem_splitNewlines cs l0 (h0 ▸ List.mem_cons_self l0 ls) h1
        · exact newline_not_mem_splitNewlines cs l (h0 ▸ List.mem_cons_of_mem l0 h)

theorem stripTrailingCR_sublist (l : List Char) : List.Sublist (stripTrailingCR l) l := by
  unfold stripTrailingCR
  split
  · exact List.dropLast_sublist l
  · exact List.Sublist.refl l

theorem mem_finishLines :
    ∀ (chunks : List (List Char)) (l : List Char), l ∈ finishLines chunks →
      ∃ ch ∈ chunks, List.Sublist l ch
  | [], l, hl => by simp [finishLines] at hl
  | [last], l, hl => by
    simp only [finishLines] at hl
    split at hl
    · simp at hl
    · rcases List.mem_singleton.1 hl with rfl
      exact ⟨l, List.mem_singleton_self l, List.Sublist.refl l⟩
  | chunk :: next :: rest, l, hl => by
    simp only [finishLines] at hl
    rcases List.mem_cons.1 hl with rfl | h
    · exact ⟨chunk, List.mem_cons_self _ _, stripTrailingCR_sublist chunk⟩
    · rcases mem_finishLines (next :: rest) l h with ⟨ch, hch, hsub⟩
      exact ⟨ch, List.mem_cons_of_mem chunk hch, hsub⟩

theorem newline_not_mem_lines (contents l : List Char) (hl : l ∈ lines contents) :
    '\n' ∉ l := by
  rcases mem_finishLines _ l hl with ⟨ch, hch, hsub⟩
  intro hmem
  exact newline_not_mem_splitNewlines contents ch hch (hsub.subset hmem)

theorem getLast?_cons_ne_nil {α : Type} (a : α) {l : List α} (h : l ≠ []) :
    (a :: l).getLast? = l.getLast? := by
  cases l with
  | nil => exact absurd rfl h
  | cons b t => exact List.getLast?_cons_cons

theorem splitNewlines_cons (c : Char) (cs : List Char) :
    splitNewlines (c :: cs) =
      if c = '\n' then [] :: splitNewlines cs
      else
        match splitNewlines cs with
        | [] => [[c]]
        | l :: ls => (c :: l) :: ls := by
  rw [splitNewlines]

theorem splitNewlines_getLast_ne_nil :
    ∀ cs : List Char, cs ≠ [] → cs.getLast? ≠ some '\n' →
      ∃ L, (splitNewlines cs).getLast? = some L ∧ L ≠ []
  | [], h, _ => absurd rfl h
  | [c], _, hlast => by
    have hc : c ≠ '\n' := by
      intro hc
      exact hlast (by simp [hc])
    refine ⟨[c], ?_, by simp⟩
    rw [splitNewlines_cons, if_neg hc]
    simp [splitNewlines]
  | c :: d :: cs, _, hlast => by
    rw [List.getLast?_cons_cons] at hlast
    obtain ⟨L, hL, hne⟩ :=
      splitNewlines_getLast_ne_nil (d :: cs) (List.cons_ne_nil d cs) hlast
    by_cases hc : c = '\n'
    · refine ⟨L, ?_, hne⟩
      rw [splitNewlines_cons, if_pos hc,
        getLast?_cons_ne_nil _ (splitNewlines_ne_nil (d :: cs))]
      exact hL
    · rw [splitNewlines_cons, if_neg hc]
      rcases h0 : splitNewlines (d :: cs) with _ | ⟨l0, ls⟩
      · exact absurd h0 (splitNewlines_ne_nil (d :: cs))
      · cases ls with
        | nil => exact ⟨c :: l0, by simp, by simp⟩
        | cons l1 ls =>
          refine ⟨L, ?_, hne⟩
          simp only
          rw [List.getLast?_cons_cons]
          rw [h0, List.getLast?_cons_cons] at hL
          exact hL

theorem finishLines_getLast :
    ∀ (chunks : List (List Char)) (L : List Char),
      chunks.getLast? = some L → L ≠ [] →
      (finishLines chunks).getLast? = some L
  | [], L, h, _ => by simp at h
  | [last], L, h, hne => by
    simp only [List.getLast?_singleton, Option.some.injEq] at h
    subst h
    simp [finishLines, if_neg hne]
  | chunk :: next :: rest, L, h, hne => by
    rw [List.getLast?_cons_cons] at h
    have IH := finishLines_getLast (next :: rest) L h hne
    have hfin : finishLines (next :: rest) ≠ [] := by
      intro h0
      rw [h0] at IH
      simp at IH
    show (finishLines (chunk :: next :: rest)).getLast? = some L
    simp only [finishLines]
    rw [getLast?_cons_ne_nil _ hfin]
    exact IH

theorem lines_getLast (contents : List Char) (h : contents ≠ [])
    (hlast : contents.getLast? ≠ some '\n') :
    ∃ L, ( lines contents).getLast? = some L ∧ L ∈ lines contents ∧ L ≠ [] := by
  obtain ⟨L, hL, hne⟩ := splitNewlines_getLast_ne_nil contents h hlast
  have hfin := finishLines_getLast _ L hL hne
  exact ⟨L, hfin, List.mem_of_getLast?_eq_some hfin, hne⟩

theorem char_toNat_ofNat (m : Nat) (h : m.isValidChar) :
    (Char.ofNat m).toNat = m := by
  simp [Char.ofNat, dif_pos h, Char.ofNatAux, Char.toNat, UInt32.toNat]

theorem charLowerSimple_eq_newline {c : Char}
    (h : charLowerSimple c = '\n') : c = '\n' := by
  unfold charLowerSimple at h
  split at h
  · rename_i hcond
    exfalso
    have hv : (c.toNat + 32).isValidChar := Or.inl (by omega)
    have h2 := congrArg Char.toNat h
    rw [char_toNat_ofNat _ hv] at h2
    have h10 : ('\n').toNat = 10 := by decide
    rw [h10] at h2
    omega
  · split at h
    · rename_i hcond
      exfalso
      have hv : (c.toNat + 32).isValidChar := Or.inl (by omega)
      have h2 := congrArg Char.toNat h
      rw [char_toNat_ofNat _ hv] at h2
      have h10 : ('\n').toNat = 10 := by decide
      rw [h10] at h2
      omega
    · exact h

theorem map_preserves_substring (f : Char → Char) {q l : List Char}
    (h : q <:+: l) : q.map f <:+: l.map f := by
  rcases h with ⟨s, t, rfl⟩
  exact ⟨s.map f, t.map f, by simp⟩

theorem toLowercaseAux_no_sigma :
    ∀ (before s : List Char), 'Σ' ∉ s →
      toLowercaseAux before s = s.map charLowerSimple
  | _, [], _ => rfl
  | before, c :: after, h => by
    have hc : c ≠ 'Σ' := by
      intro hc
      exact h (by rw [← hc]; exact List.mem_cons_self c after)
    simp only [toLowercaseAux, if_neg hc, List.singleton_append, List.map_cons]
    rw [toLowercaseAux_no_sigma (c :: before) after
      (fun hm => h (List.mem_cons_of_mem c hm))]

theorem toLowercase_no_sigma {s : List Char} (h : 'Σ' ∉ s) :
    toLowercase s = s.map charLowerSimple :=
  toLowercaseAux_no_sigma [] s h

theorem newline_mem_toLowercaseAux_of_mem :
    ∀ (before s : List Char), '\n' ∈ s → '\n' ∈ toLowercaseAux before s
  | _, [], h => absurd h (List.not_mem_nil _)
  | before, c :: after, h => by
    simp only [toLowercaseAux]
    rcases List.mem_cons.1 h with h1 | h1
    · subst h1
      rw [if_neg (by decide)]
      have he : charLowerSimple '\n' = '\n' := by decide
      rw [he]
      exact List.mem_append.2 (Or.inl (List.mem_singleton_self _))
    · exact List.mem_append.2
        (Or.inr (newline_mem_toLowercaseAux_of_mem (c :: before) after h1))

theorem newline_mem_of_mem_toLowercaseAux :
    ∀ (before s : List Char), '\n' ∈ toLowercaseAux before s → '\n' ∈ s
  | _, [], h => absurd h (List.not_mem_nil _)
  | before, c :: after, h => by
    simp only [toLowercaseAux] at h
    rcases List.mem_append.1 h with h1 | h1
    · split at h1
      · split at h1
        · exact absurd (List.mem_singleton.1 h1) (by decide)
        · exact absurd (List.mem_singleton.1 h1) (by decide)
      · have h2 := List.mem_singleton.1 h1
        have hc := charLowerSimple_eq_newline h2.symm
        exact List.mem_cons.2 (Or.inl hc.symm)
    · exact List.mem_cons.2
        (Or.inr (newline_mem_of_mem_toLowercaseAux (c :: before) after h1))

theorem newline_mem_of_mem_toLowercase {l : List Char}
    (h : '\n' ∈ toLowercase l) : '\n' ∈ l :=
  newline_mem_of_mem_toLowercaseAux [] l h

theorem mem_splitNewlines_subset :
    ∀ (cs l : List Char), l ∈ splitNewlines cs → ∀ a, a ∈ l → a ∈ cs
  | [], l, hl, a, ha => by
    simp only [splitNewlines, List.mem_singleton] at hl
    subst hl
    exact absurd ha (List.not_mem_nil a)
  | c :: cs, l, hl, a, ha => by
    rw [splitNewlines_cons] at hl
    by_cases hc : c = '\n'
    · rw [if_pos hc] at hl
      rcases List.mem_cons.1 hl with rfl | h
      · exact absurd ha (List.not_mem_nil a)
      · exact List.mem_cons_of_mem c (mem_splitNewlines_subset cs l h a ha)
    · rw [if_neg hc] at hl
      rcases h0 : splitNewlines cs with _ | ⟨l0, ls⟩
      · exact absurd h0 (splitNewlines_ne_nil cs)
      · rw [h0] at hl
        rcases List.mem_cons.1 hl with rfl | h
        · rcases List.mem_cons.1 ha with rfl | h1
          · exact List.mem_cons_self a cs
          · exact List.mem_cons_of_mem c
              (mem_splitNewlines_subset cs l0
                (h0 ▸ List.mem_cons_self l0 ls) a h1)
        · exact List.mem_cons_of_mem c
            (mem_splitNewlines_subset cs l
              (h0 ▸ List.mem_cons_of_mem l0 h) a ha)

theorem mem_lines_subset (contents l : List Char) (hl : l ∈ lines contents) :
    ∀ a, a ∈ l → a ∈ contents := by
  rcases mem_finishLines _ l hl with ⟨ch, hch, hsub⟩
  intro a ha
  exact mem_splitNewlines_subset contents ch hch a (hsub.subset ha)

/-- C1: the case-sensitive search returns exactly the lines of the content
that contain the query as an exact substring (a line is in the result iff
it is a line of the content containing the query), and on the four-line
example content with query "Rust" the result is exactly ["Rust:"]. -/
theorem case_sensitive_search_spec (query contents : List Char) :
    (∀ line, line ∈ CaseSensitiveSearch.search query contents ↔
      line ∈ lines contents ∧ query <:+: line) ∧
    CaseSensitiveSearch.search ("Rust").toList exampleContents =
      [("Rust:").toList] := by
  constructor
  · intro line
    simp only [CaseSensitiveSearch.search, List.mem_filter, strContains_iff]
  · decide

/-- C2: the case-insensitive search lowercases both query and line before
the containment check, keeps exactly the lines whose lowercased form
contains the lowercased query, returns the original line text (result
elements are lines of the content, unmodified), and on the example content
with query "RuSt" the result is exactly ["Rust:", "Trust me"]. -/
theorem case_insensitive_search_spec (query contents : List Char) :
    (∀ line, line ∈ CaseInsensitiveSearch.search query contents ↔
      line ∈ lines contents ∧ toLowercase query <:+: toLowercase line) ∧
    CaseInsensitiveSearch.search ("RuSt").toList exampleContents =
      [("Rust:").toList, ("Trust me").toList] := by
  constructor
  · intro line
    simp only [CaseInsensitiveSearch.search, List.mem_filter, strContains_iff]
  · decide

/-- C3 counterexample: the claim as stated fails on the code.  With query
"Σ" and contents "AΣ", the single line "AΣ" contains the query, so the
case-sensitive result is ["AΣ"]; but to_lowercase maps the word-final Σ
to ς, so "AΣ" lowercases to "aς", which does not contain "σ" (the
lowercase of the query), and the case-insensitive result is empty. -/
theorem sigma_final_breaks_subset :
    toLowercase (("AΣ").toList) = ("aς").toList ∧
    toLowercase (("Σ").toList) = ("σ").toList ∧
    CaseSensitiveSearch.search (("Σ").toList) (("AΣ").toList) =
      [("AΣ").toList] ∧
    CaseInsensitiveSearch.search (("Σ").toList) (("AΣ").toList) = [] ∧
    ("AΣ").toList ∈
      CaseSensitiveSearch.search (("Σ").toList) (("AΣ").toList) ∧
    ("AΣ").toList ∉
      CaseInsensitiveSearch.search (("Σ").toList) (("AΣ").toList) := by
  decide

/-- C3 (amended): when the contents do not contain the capital letter
sigma — the one character whose lowercase mapping is context-sensitive —
every line in the case-sensitive result is also in the case-insensitive
result for the same query and contents. -/
theorem case_sensitive_subset_case_insensitive_no_sigma
    (query contents line : List Char) (hs : 'Σ' ∉ contents)
    (h : line ∈ CaseSensitiveSearch.search query contents) :
    line ∈ CaseInsensitiveSearch.search query contents := by
  simp only [CaseSensitiveSearch.search, List.mem_filter, strContains_iff] at h
  simp only [CaseInsensitiveSearch.search, List.mem_filter, strContains_iff]
  refine ⟨h.1, ?_⟩
  have hline : 'Σ' ∉ line := fun hm =>
    hs (mem_lines_subset contents line h.1 'Σ' hm)
  by_cases hq : 'Σ' ∈ query
  · exact (hline (h.2.sublist.subset hq)).elim
  · rw [toLowercase_no_sigma hq, toLowercase_no_sigma hline]
    exact map_preserves_substring charLowerSimple h.2

/-- Witness for the amended C3 at query "Rust" on the sigma-free example
content. -/
theorem case_sensitive_subset_case_insensitive_no_sigma_witness :
    ("Rust:").toList ∈
      CaseInsensitiveSearch.search ("Rust").toList exampleContents :=
  case_sensitive_subset_case_insensitive_no_sigma ("Rust").toList
    exampleContents ("Rust:").toList (by decide) (by decide)

/-- C4: with the empty query, both strategies return every line of the
content, in original order. -/
theorem empty_query_returns_all_lines (contents : List Char) :
    CaseSensitiveSearch.search [] contents = lines contents ∧
    CaseInsensitiveSearch.search [] contents = lines contents := by
  constructor
  · apply List.filter_eq_self.2
    intro line _
    exact (strContains_iff [] line).2 ⟨[], line, rfl⟩
  · apply List.filter_eq_self.2
    intro line _
    exact (strContains_iff [] (toLowercase line)).2 ⟨[], toLowercase line, rfl⟩

/-- C5: searching empty contents returns the empty result for every query
and both strategies; and when the contents are nonempty and do not end
with a newline, the final line is still produced and searching for its own
text finds it (with both strategies). -/
theorem edge_cases_last_line_and_empty_contents :
    (∀ query : List Char,
      CaseSensitiveSearch.search query [] = [] ∧
      CaseInsensitiveSearch.search query [] = []) ∧
    (∀ contents : List Char, contents ≠ [] →
      contents.getLast? ≠ some '\n' →
      ∃ L, ( lines contents).getLast? = some L ∧
        L ∈ CaseSensitiveSearch.search L contents ∧
        L ∈ CaseInsensitiveSearch.search L contents) := by
  constructor
  · intro query
    exact ⟨rfl, rfl⟩
  · intro contents h hlast
    obtain ⟨L, hL, hmem, _⟩ := lines_getLast contents h hlast
    refine ⟨L, hL, ?_, ?_⟩
    · simp only [CaseSensitiveSearch.search, List.mem_filter, strContains_iff]
      exact ⟨hmem, List.infix_refl L⟩
    · simp only [CaseInsensitiveSearch.search, List.mem_filter, strContains_iff]
      exact ⟨hmem, List.infix_refl (toLowercase L)⟩

/-- Witness for C5 on the contents "ab" (nonempty, no trailing newline). -/
theorem edge_cases_last_line_and_empty_contents_witness :
    ∃ L, ( lines ("ab").toList).getLast? = some L ∧
      L ∈ CaseSensitiveSearch.search L ("ab").toList ∧
      L ∈ CaseInsensitiveSearch.search L ("ab").toList :=
  edge_cases_last_line_and_empty_contents.2 ("ab").toList
    (by decide) (by decide)

/-- C6: for both strategies the result is a subsequence of the content's
line sequence: same lines, same relative order, multiplicities bounded by
those of the content's lines. -/
theorem search_result_sublist_of_lines (query contents : List Char) :
    List.Sublist (CaseSensitiveSearch.search query contents)
      ( lines contents) ∧
    List.Sublist (CaseInsensitiveSearch.search query contents)
      ( lines contents) :=
  ⟨List.filter_sublist _, List.filter_sublist _⟩

/-- C7: Config::build discards the first argument, errors when the query
(second element) is absent, errors with a different message when the file
path (third element) is absent, is insensitive to the value of the first
argument, and the two error messages are distinct.  The function is pure,
so no file access or other side effect happens in any case. -/
theorem config_build_missing_arguments (args : List String)
    (env : Option String) :
    (args.drop 1 = [] →
      Config.build args env = .error ("Didn\x27t get a string to query")) ∧
    (∀ q, args.drop 1 = [q] →
      Config.build args env = .error ("Didn\x27t get a filepath")) ∧
    (∀ (a b : String) (rest : List String),
      Config.build (a :: rest) env = Config.build (b :: rest) env) ∧
    ("Didn\x27t get a string to query" : String) ≠
      "Didn\x27t get a filepath" := by
  refine ⟨?_, ?_, fun a b rest => rfl, by decide⟩
  · intro h
    simp [Config.build, h]
  · intro q h
    simp [Config.build, h]

/-- Witness for C7: only the program name is present. -/
theorem config_build_missing_arguments_witness :
    Config.build ["minigrep"] none =
      .error ("Didn\x27t get a string to query") :=
  (config_build_missing_arguments ["minigrep"] none).1 rfl

/-- C8: with enough arguments, Config::build succeeds and sets ignore_case
to whether the IGNORE_CASE environment variable is present, ignoring its
value: any set value (including the empty string) gives true, absence
gives false. -/
theorem config_build_ignore_case_presence (a q f : String)
    (rest : List String) :
    (∀ env : Option String, Config.build (a :: q :: f :: rest) env =
      .ok { query := q, file_path := f, ignore_case := env.isSome }) ∧
    (∀ v : String, Config.build (a :: q :: f :: rest) (some v) =
      .ok { query := q, file_path := f, ignore_case := true }) ∧
    Config.build (a :: q :: f :: rest) none =
      .ok { query := q, file_path := f, ignore_case := false } :=
  ⟨fun _ => rfl, fun _ => rfl, rfl⟩

/-- C9: the factory is total — it returns some strategy for every flag,
false giving the case-sensitive and true the case-insensitive strategy —
so the expect branch in run can never fire. -/
theorem search_strategy_factory_total :
    (∀ b : Bool, (search_strategy_factory b).isSome = true) ∧
    search_strategy_factory false = some SearchStrategy.CaseSensitiveSearch ∧
    search_strategy_factory true = some SearchStrategy.CaseInsensitiveSearch := by
  refine ⟨?_, rfl, rfl⟩
  intro b
  cases b <;> rfl

/-- C10: no result element of either strategy contains a newline (results
are single lines), and a query containing a newline yields the empty
result for both strategies. -/
theorem search_results_are_single_lines (query contents : List Char) :
    (∀ line, line ∈ CaseSensitiveSearch.search query contents →
      '\n' ∉ line) ∧
    (∀ line, line ∈ CaseInsensitiveSearch.search query contents →
      '\n' ∉ line) ∧
    ('\n' ∈ query →
      CaseSensitiveSearch.search query contents = [] ∧
      CaseInsensitiveSearch.search query contents = []) := by
  refine ⟨?_, ?_, ?_⟩
  · intro line hline
    exact newline_not_mem_lines contents line
      ((List.filter_sublist _).subset hline)
  · intro line hline
    exact newline_not_mem_lines contents line
      ((List.filter_sublist _).subset hline)
  · intro hq
    constructor
    · apply List.filter_eq_nil_iff.2
      intro line hline hc
      have h1 := (strContains_iff query line).1 hc
      exact newline_not_mem_lines contents line hline (h1.sublist.subset hq)
    · apply List.filter_eq_nil_iff.2
      intro line hline hc
      have h1 := (strContains_iff _ _).1 hc
      have h2 : '\n' ∈ toLowercase query :=
        newline_mem_toLowercaseAux_of_mem [] query hq
      exact newline_not_mem_lines contents line hline
        (newline_mem_of_mem_toLowercase (h1.sublist.subset h2))

/-- Witness for C10: a query that is a newline finds nothing. -/
theorem search_results_are_single_lines_witness :
    CaseSensitiveSearch.search ("\n").toList ("ab").toList = [] ∧
    CaseInsensitiveSearch.search ("\n").toList ("ab").toList = [] :=
  (search_results_are_single_lines ("\n").toList ("ab").toList).2.2
    (by decide)

end Minigrep
